import Mathlib

/-!
Shallow embedding of the fqlib validation core:
`src/validators/single/alphabet.rs`, `src/validators/single/duplicate_name.rs`
and `src/distributions/quality_scores.rs`.

Byte strings are modelled as `List Nat`; the Rust `HashMap<Vec<u8>, u8>` is
modelled as an association list with exact lookup semantics; the external
`bloom::ScalableBloomFilter` (a dependency crate, not part of this repository)
is modelled per its documented contract — an approximate membership set with
no false negatives and a possibility of false positives, the false positives
being supplied by an arbitrary oracle parameter.
-/

/-- The `LineType` enum of `validators`: which of the four record lines a
diagnosis refers to. -/
inductive LineType where
  | Name
  | Sequence
  | Separator
  | Quality
  deriving DecidableEq

/-- The `ValidationLevel` enum of `validators`. -/
inductive ValidationLevel where
  | Low
  | Medium
  | High
  deriving DecidableEq

/-- The `validators::Error` diagnosis value, as built by `Error::new(code,
name, message, line_type, position)`. -/
structure Error where
  code : String
  name : String
  message : String
  lineType : LineType
  position : Option Nat
  deriving DecidableEq

/-- A `Block` (record): four byte strings — name, sequence, separator
("plus line"), quality. -/
structure Block where
  name : List Nat
  sequence : List Nat
  separator : List Nat
  quality : List Nat
  deriving DecidableEq

/-- `Block::new`. -/
def Block.new (name sequence separator quality : List Nat) : Block :=
  ⟨name, sequence, separator, quality⟩

/-! ## AlphabetValidator (`src/validators/single/alphabet.rs`) -/

/-- `AlphabetValidator`: the permitted byte set, modelled as a list with
membership semantics (the Rust field is a `HashSet<u8>`). -/
structure AlphabetValidator where
  alphabet : List Nat
  deriving DecidableEq

/-- `AlphabetValidator::new`: collects the given characters. -/
def AlphabetValidator.new (characters : List Nat) : AlphabetValidator :=
  ⟨characters⟩

/-- `AlphabetValidator::default`: the alphabet `b"ACGTNacgtn"`. -/
def AlphabetValidator.default : AlphabetValidator :=
  AlphabetValidator.new [65, 67, 71, 84, 78, 97, 99, 103, 116, 110]

/-- The loop body of `AlphabetValidator::validate`: scan the sequence left to
right carrying the current index `i`; return the first byte not contained in
the alphabet together with its 0-based index, or `none` when the scan
completes. -/
def firstBad (al : List Nat) : List Nat → Nat → Option (Nat × Nat)
  | [], _ => none
  | c :: rest, i => if c ∈ al then firstBad al rest (i + 1) else some (c, i)

/-- `AlphabetValidator::validate`: on the first sequence byte outside the
alphabet, fail with code `S002`, line type `Sequence` and 1-based position
`i + 1`; otherwise succeed. -/
def AlphabetValidator.validate (v : AlphabetValidator) (b : Block) :
    Except Error Unit :=
  match firstBad v.alphabet b.sequence 0 with
  | some (c, i) =>
      Except.error
        (Error.mk "S002" "AlphabetValidator"
          ("Invalid character: " ++ (Char.ofNat c).toString)
          LineType.Sequence (some (i + 1)))
  | none => Except.ok ()

/-! ## DuplicateNameValidator (`src/validators/single/duplicate_name.rs`) -/

/-- A false-positive oracle for the approximate membership filter: given the
exact multiset of names already inserted and a queried name, it may report a
spurious hit. Modelled from the spec: the external scalable Bloom filter is
"a probabilistic set supporting insert and probably-contains, with a bounded
false-positive rate and no false negatives". -/
abbrev FPOracle := List (List Nat) → List Nat → Bool

/-- Modelled from the spec: `ScalableBloomFilter::contains_or_insert` of the
external `bloom` crate (not part of this repository). The filter state is the
list of names inserted so far; the returned flag is true when the name was
already inserted (no false negatives) or when the oracle reports a false
positive; the name is then recorded in the state. -/
def ScalableBloomFilter.contains_or_insert (oracle : FPOracle)
    (s : List (List Nat)) (n : List Nat) : Bool × List (List Nat) :=
  (decide (n ∈ s) || oracle s n, n :: s)

/-- `DuplicateNameValidator`: the filter plus the exact candidate map
`possible_duplicates : HashMap<Vec<u8>, u8>`, modelled as an association
list. -/
structure DuplicateNameValidator where
  filter : List (List Nat)
  possible_duplicates : List (List Nat × Nat)
  deriving DecidableEq

/-- `DuplicateNameValidator::new`: empty filter, empty candidate map. -/
def DuplicateNameValidator.new : DuplicateNameValidator :=
  ⟨[], []⟩

/-- `HashMap::insert` on the association list: replace the value at an
existing key, else append the binding. -/
def alInsert (m : List (List Nat × Nat)) (k : List Nat) (v : Nat) :
    List (List Nat × Nat) :=
  match m with
  | [] => [(k, v)]
  | (k0, v0) :: rest =>
      if k0 = k then (k, v) :: rest else (k0, v0) :: alInsert rest k v

/-- `HashMap::get` on the association list. -/
def alLookup (m : List (List Nat × Nat)) (k : List Nat) : Option Nat :=
  match m with
  | [] => none
  | (k0, v0) :: rest => if k0 = k then some v0 else alLookup rest k

/-- The key set of the candidate map. -/
def keysOf (m : List (List Nat × Nat)) : List (List Nat) :=
  m.map Prod.fst

/-- The body of `DuplicateNameValidator::insert` on a name: test-and-insert
into the filter; on a hit, record the name in the candidate map with
counter 0. -/
def insertName (oracle : FPOracle) (v : DuplicateNameValidator)
    (n : List Nat) : DuplicateNameValidator :=
  let r := ScalableBloomFilter.contains_or_insert oracle v.filter n
  { filter := r.2,
    possible_duplicates :=
      if r.1 then alInsert v.possible_duplicates n 0 else v.possible_duplicates }

/-- `DuplicateNameValidator::insert` on a block. -/
def DuplicateNameValidator.insert (oracle : FPOracle)
    (v : DuplicateNameValidator) (b : Block) : DuplicateNameValidator :=
  insertName oracle v b.name

/-- `DuplicateNameValidator::is_empty`. -/
def DuplicateNameValidator.is_empty (v : DuplicateNameValidator) : Bool :=
  v.possible_duplicates.isEmpty

/-- The `S007` duplicate diagnosis for a name (the Rust message wraps the
lossily-decoded name in single quotes, written here as `\x27`). -/
def dupError (n : List Nat) : Error :=
  Error.mk "S007" "DuplicateNameValidator"
    ("Duplicate found: \x27" ++ String.mk (n.map Char.ofNat) ++ "\x27")
    LineType.Name (some 1)

/-- The body of `DuplicateNameValidator::validate` on a name: look the name up
in the candidate map; absent means pass; counter ≥ 1 means fail without
mutation; counter 0 means pass and increment the counter. Returns the result
together with the post-state (the Rust method takes `&mut self`). -/
def validateName (v : DuplicateNameValidator) (n : List Nat) :
    Except Error Unit × DuplicateNameValidator :=
  match alLookup v.possible_duplicates n with
  | some count =>
      if 1 ≤ count then
        (Except.error (dupError n), v)
      else
        (Except.ok (),
          { v with possible_duplicates := alInsert v.possible_duplicates n (count + 1) })
  | none => (Except.ok (), v)

/-- `DuplicateNameValidator::validate` on a block. -/
def DuplicateNameValidator.validate (v : DuplicateNameValidator) (b : Block) :
    Except Error Unit × DuplicateNameValidator :=
  validateName v b.name

/-- Pass 1: `insert` called once per name, in order. -/
def insertAllNames (oracle : FPOracle) (v : DuplicateNameValidator) :
    List (List Nat) → DuplicateNameValidator
  | [] => v
  | n :: rest => insertAllNames oracle (insertName oracle v n) rest

/-- Pass 2: `validate` called once per name, in order, threading the state and
collecting the results. -/
def validateAllNames (v : DuplicateNameValidator) :
    List (List Nat) → List (Except Error Unit)
  | [] => []
  | n :: rest =>
      let r := validateName v n
      r.1 :: validateAllNames r.2 rest

/-- Whether a validation result is a pass. -/
def isOkE : Except Error Unit → Bool
  | Except.ok _ => true
  | Except.error _ => false

/-- The oracle of a filter that never reports a false positive. -/
def noFalsePositives : FPOracle := fun _ _ => false

/-- The oracle of a filter that reports a (false) positive on every query. -/
def alwaysHit : FPOracle := fun _ _ => true

/-- An operation on a `DuplicateNameValidator` (for invariants preserved by
every operation; `new` is the initial state, `is_empty` does not mutate). -/
inductive DupOp where
  | ins (n : List Nat)
  | val (n : List Nat)

/-- Apply one operation to the validator state. -/
def applyOp (oracle : FPOracle) (v : DuplicateNameValidator) :
    DupOp → DuplicateNameValidator
  | DupOp.ins n => insertName oracle v n
  | DupOp.val n => (validateName v n).2

/-- Run a list of operations from a state. -/
def runOps (oracle : FPOracle) (v : DuplicateNameValidator) :
    List DupOp → DuplicateNameValidator
  | [] => v
  | op :: rest => runOps oracle (applyOp oracle v op) rest

/-- Pass-2 outcome list as the spec describes it, for comparison: a position
passes unless its name is the duplicated name `X` and `X` already occurred
earlier in pass-2 order. -/
def expectedPass2 (X : List Nat) : List (List Nat) → List (List Nat) → List Bool
  | [], _ => []
  | n :: rest, seen =>
      decide (¬(n = X ∧ n ∈ seen)) :: expectedPass2 X rest (n :: seen)

/-- Pass-2 state invariant: every candidate-map entry has counter 1 when its
key has already been validated (among `seen`) and counter 0 otherwise. -/
def goodState (v : DuplicateNameValidator) (seen : List (List Nat)) : Prop :=
  ∀ k, k ∈ keysOf v.possible_duplicates →
    (alLookup v.possible_duplicates k = some 1 ∧ k ∈ seen) ∨
    (alLookup v.possible_duplicates k = some 0 ∧ k ∉ seen)

/-- All counters stored in the candidate map are at most 1. -/
def countersLE1 (v : DuplicateNameValidator) : Prop :=
  ∀ k c, alLookup v.possible_duplicates k = some c → c ≤ 1

/-! ## QualityScores (`src/distributions/quality_scores.rs`) -/

/-- The `MIN` constant: lower bound of the quality range. -/
def MIN : ℚ := 0

/-- The `MAX` constant: upper bound of the quality range. -/
def MAX : ℚ := 41

/-- The free function `clamp(n, min, max)`. Real-number comparisons on `f64`
are modelled exactly over `ℚ`; no arithmetic is performed. -/
def clamp (n min max : ℚ) : ℚ :=
  if n < min then min else if n > max then max else n

/-- The `score as u8` narrowing: Rust float-to-int casts saturate to the
target range. -/
def u8cast (z : ℤ) : ℤ :=
  max 0 (min z 255)

/-- `QualityScores::sample`, as a function of the raw normal draw `n` (the
random source is abstracted): clamp into `[MIN, MAX]`, round to the nearest
integer (`f64::round` rounds half away from zero, which on the nonnegative
clamped range agrees with `round` over `ℚ`), then narrow to `u8`. -/
def QualityScores.sample (n : ℚ) : ℤ :=
  u8cast (round (clamp n MIN MAX))

/-! ## Association list lemmas -/

lemma alLookup_alInsert (m : List (List Nat × Nat)) (k k' : List Nat) (c : Nat) :
    alLookup (alInsert m k c) k' = if k = k' then some c else alLookup m k' := by
  induction m with
  | nil =>
      by_cases h : k = k' <;> simp [alInsert, alLookup, h]
  | cons p rest ih =>
      obtain ⟨k0, v0⟩ := p
      by_cases h0 : k0 = k
      · subst h0
        by_cases h1 : k0 = k' <;> simp [alInsert, alLookup, h1]
      · by_cases h1 : k0 = k'
        · subst h1
          have hkk : ¬ k = k0 := fun h => h0 h.symm
          simp [alInsert, if_neg h0, alLookup, if_neg hkk]
        · simp [alInsert, if_neg h0, alLookup, if_neg h1, ih]

lemma mem_keysOf_iff_lookup (m : List (List Nat × Nat)) (k : List Nat) :
    k ∈ keysOf m ↔ ∃ c, alLookup m k = some c := by
  induction m with
  | nil => simp [keysOf, alLookup]
  | cons p rest ih =>
      obtain ⟨k0, v0⟩ := p
      by_cases h0 : k0 = k
      · subst h0
        simp [keysOf, alLookup]
      · have hkk : ¬ k = k0 := fun h => h0 h.symm
        simp only [keysOf, List.map_cons, List.mem_cons, alLookup, if_neg h0]
        rw [keysOf] at ih
        simp [hkk, ih]

lemma mem_keysOf_alInsert (m : List (List Nat × Nat)) (k k' : List Nat) (c : Nat) :
    k' ∈ keysOf (alInsert m k c) ↔ k' = k ∨ k' ∈ keysOf m := by
  rw [mem_keysOf_iff_lookup, mem_keysOf_iff_lookup, alLookup_alInsert]
  by_cases h : k = k'
  · subst h
    simp
  · have hkk : ¬ k' = k := fun hh => h hh.symm
    simp [if_neg h, hkk]

lemma keysOf_alInsert_of_mem (m : List (List Nat × Nat)) (k : List Nat) (c : Nat)
    (h : k ∈ keysOf m) : keysOf (alInsert m k c) = keysOf m := by
  induction m with
  | nil => simp [keysOf] at h
  | cons p rest ih =>
      obtain ⟨k0, v0⟩ := p
      by_cases h0 : k0 = k
      · subst h0
        simp [alInsert, keysOf]
      · simp only [keysOf, List.map_cons, List.mem_cons] at h
        rcases h with h | h
        · exact absurd h.symm h0
        · have hrec := ih (by simpa [keysOf] using h)
          rw [keysOf] at hrec
          simp [alInsert, if_neg h0, keysOf, hrec]

/-! ## Step lemmas for the duplicate-name validator -/

lemma validateName_of_none (v : DuplicateNameValidator) (n : List Nat)
    (h : alLookup v.possible_duplicates n = none) :
    validateName v n = (Except.ok (), v) := by
  simp [validateName, h]

lemma validateName_of_zero (v : DuplicateNameValidator) (n : List Nat)
    (h : alLookup v.possible_duplicates n = some 0) :
    validateName v n =
      (Except.ok (),
        { v with possible_duplicates := alInsert v.possible_duplicates n 1 }) := by
  simp [validateName, h]

lemma validateName_of_pos (v : DuplicateNameValidator) (n : List Nat) (c : Nat)
    (h : alLookup v.possible_duplicates n = some c) (hc : 1 ≤ c) :
    validateName v n = (Except.error (dupError n), v) := by
  simp [validateName, h, hc]

lemma keysOf_validateName (v : DuplicateNameValidator) (n : List Nat) :
    keysOf (validateName v n).2.possible_duplicates = keysOf v.possible_duplicates := by
  rcases hl : alLookup v.possible_duplicates n with _ | c
  · rw [validateName_of_none v n hl]
  · by_cases hc : 1 ≤ c
    · rw [validateName_of_pos v n c hl hc]
    · have hc0 : c = 0 := by omega
      subst hc0
      rw [validateName_of_zero v n hl]
      exact keysOf_alInsert_of_mem _ _ _
        ((mem_keysOf_iff_lookup _ _).2 ⟨0, hl⟩)

lemma insertName_filter (oracle : FPOracle) (v : DuplicateNameValidator)
    (n : List Nat) : (insertName oracle v n).filter = n :: v.filter := by
  simp [insertName, ScalableBloomFilter.contains_or_insert]

lemma insertName_pd_of_mem_filter (oracle : FPOracle) (v : DuplicateNameValidator)
    (n : List Nat) (h : n ∈ v.filter) :
    (insertName oracle v n).possible_duplicates = alInsert v.possible_duplicates n 0 := by
  simp [insertName, ScalableBloomFilter.contains_or_insert, h]

lemma mem_keysOf_insertName (oracle : FPOracle) (v : DuplicateNameValidator)
    (n k : List Nat) (h : k ∈ keysOf v.possible_duplicates) :
    k ∈ keysOf (insertName oracle v n).possible_duplicates := by
  simp only [insertName, ScalableBloomFilter.contains_or_insert]
  by_cases hb : (decide (n ∈ v.filter) || oracle v.filter n) = true
  · simp only [hb, if_pos]
    exact (mem_keysOf_alInsert _ _ _ _).2 (Or.inr h)
  · simp only [hb, if_neg]
    simpa using h

/-! ## Pass-1 lemmas -/

lemma insertAllNames_append (oracle : FPOracle) (l1 l2 : List (List Nat)) :
    ∀ v, insertAllNames oracle v (l1 ++ l2)
      = insertAllNames oracle (insertAllNames oracle v l1) l2 := by
  induction l1 with
  | nil => intro v; rfl
  | cons n rest ih => intro v; simp [insertAllNames, ih]

lemma insertAllNames_filter (oracle : FPOracle) (ns : List (List Nat)) :
    ∀ v, (insertAllNames oracle v ns).filter = ns.reverse ++ v.filter := by
  induction ns with
  | nil => intro v; simp [insertAllNames]
  | cons n rest ih =>
      intro v
      simp [insertAllNames, ih, insertName_filter]

lemma insertAllNames_values_zero (oracle : FPOracle) (ns : List (List Nat)) :
    ∀ v, (∀ k c, alLookup v.possible_duplicates k = some c → c = 0) →
      ∀ k c, alLookup (insertAllNames oracle v ns).possible_duplicates k = some c →
        c = 0 := by
  induction ns with
  | nil => intro v hv; exact hv
  | cons n rest ih =>
      intro v hv
      refine ih (insertName oracle v n) ?_
      intro k c hk
      simp only [insertName, ScalableBloomFilter.contains_or_insert] at hk
      by_cases hb : (decide (n ∈ v.filter) || oracle v.filter n) = true
      · simp only [hb, if_pos] at hk
        rw [alLookup_alInsert] at hk
        by_cases hnk : n = k
        · simp [hnk] at hk
          omega
        · rw [if_neg hnk] at hk
          exact hv k c hk
      · simp only [hb, if_neg] at hk
        exact hv k c hk

lemma insertAllNames_keys_sub (oracle : FPOracle) (ns : List (List Nat)) :
    ∀ v k, k ∈ keysOf (insertAllNames oracle v ns).possible_duplicates →
      k ∈ ns ∨ k ∈ keysOf v.possible_duplicates := by
  induction ns with
  | nil =>
      intro v k h
      exact Or.inr h
  | cons n rest ih =>
      intro v k h
      rcases ih (insertName oracle v n) k h with h1 | h1
      · exact Or.inl (List.mem_cons_of_mem n h1)
      · simp only [insertName, ScalableBloomFilter.contains_or_insert] at h1
        by_cases hb : (decide (n ∈ v.filter) || oracle v.filter n) = true
        · simp only [hb, if_pos] at h1
          rcases (mem_keysOf_alInsert _ _ _ _).1 h1 with h2 | h2
          · exact Or.inl (h2 ▸ List.mem_cons_self n rest)
          · exact Or.inr h2
        · simp only [hb, if_neg] at h1
          exact Or.inr h1

lemma insertAllNames_complete (oracle : FPOracle) (X : List Nat)
    (ns : List (List Nat)) :
    ∀ v, (2 ≤ ns.count X ∨ (1 ≤ ns.count X ∧ X ∈ v.filter) ∨
        X ∈ keysOf v.possible_duplicates) →
      X ∈ keysOf (insertAllNames oracle v ns).possible_duplicates := by
  induction ns with
  | nil =>
      intro v h
      rcases h with h | h | h
      · simp [List.count_nil] at h
      · simp [List.count_nil] at h
      · exact h
  | cons n rest ih =>
      intro v h
      by_cases hnX : n = X
      · subst hnX
        rcases h with h | h | h
        · rw [List.count_cons_self] at h
          by_cases hf : n ∈ v.filter
          · refine ih (insertName oracle v n) (Or.inr (Or.inr ?_))
            rw [insertName_pd_of_mem_filter oracle v n hf]
            exact (mem_keysOf_alInsert _ _ _ _).2 (Or.inl rfl)
          · refine ih (insertName oracle v n) (Or.inr (Or.inl ⟨by omega, ?_⟩))
            rw [insertName_filter]
            exact List.mem_cons_self n v.filter
        · refine ih (insertName oracle v n) (Or.inr (Or.inr ?_))
          rw [insertName_pd_of_mem_filter oracle v n h.2]
          exact (mem_keysOf_alInsert _ _ _ _).2 (Or.inl rfl)
        · exact ih (insertName oracle v n)
            (Or.inr (Or.inr (mem_keysOf_insertName oracle v n n h)))
      · rcases h with h | h | h
        · rw [List.count_cons_of_ne (fun hh => hnX hh.symm)] at h
          exact ih (insertName oracle v n) (Or.inl h)
        · rw [List.count_cons_of_ne (fun hh => hnX hh.symm)] at h
          refine ih (insertName oracle v n) (Or.inr (Or.inl ⟨h.1, ?_⟩))
          rw [insertName_filter]
          exact List.mem_cons_of_mem n h.2
        · exact ih (insertName oracle v n)
            (Or.inr (Or.inr (mem_keysOf_insertName oracle v n X h)))

/-! ## Pass-2 lemmas -/

lemma count_reorder (seen rest : List (List Nat)) (n y : List Nat) :
    ((n :: seen) ++ rest).count y = (seen ++ (n :: rest)).count y := by
  by_cases h : n = y
  · subst h
    simp [List.count_append, List.count_cons_self]
    omega
  · have h' : y ≠ n := fun hh => h hh.symm
    simp [List.count_append, List.count_cons_of_ne h']

lemma goodState_seen_count (v : DuplicateNameValidator) (seen : List (List Nat))
    (n : List Nat) (hgs : goodState v seen)
    (h1 : alLookup v.possible_duplicates n = some 1) : n ∈ seen := by
  rcases hgs n ((mem_keysOf_iff_lookup _ _).2 ⟨1, h1⟩) with h | h
  · exact h.2
  · rw [h1] at h
    simp at h

lemma pass2_run (X : List Nat) (ns : List (List Nat)) :
    ∀ (seen : List (List Nat)) (v : DuplicateNameValidator),
      goodState v seen →
      X ∈ keysOf v.possible_duplicates →
      (∀ y, y ≠ X → (seen ++ ns).count y ≤ 1) →
      (validateAllNames v ns).map isOkE = expectedPass2 X ns seen := by
  induction ns with
  | nil =>
      intro seen v _ _ _
      rfl
  | cons n rest ih =>
      intro seen v hgs hXk hcnt
      have hcnt' : ∀ y, y ≠ X → ((n :: seen) ++ rest).count y ≤ 1 := by
        intro y hy
        rw [count_reorder]
        exact hcnt y hy
      by_cases hk : n ∈ keysOf v.possible_duplicates
      · rcases hgs n hk with ⟨h1, hseen⟩ | ⟨h0, hnotseen⟩
        · -- counter 1: confirmed repeat, Err, state unchanged
          have hval := validateName_of_pos v n 1 h1 le_rfl
          have hnX : n = X := by
            by_contra hne
            have hc := hcnt n hne
            have hs : 1 ≤ seen.count n := by
              have := List.count_pos_iff.mpr hseen
              omega
            have hr : 1 ≤ (n :: rest).count n := by
              simp [List.count_cons_self]
            rw [List.count_append] at hc
            omega
          have hgs' : goodState v (n :: seen) := by
            intro k hk2
            rcases hgs k hk2 with ⟨ha, hb⟩ | ⟨ha, hb⟩
            · exact Or.inl ⟨ha, List.mem_cons_of_mem n hb⟩
            · refine Or.inr ⟨ha, ?_⟩
              intro hmem
              rcases List.mem_cons.1 hmem with hkn | hkn
              · rw [hkn] at ha
                rw [ha] at h1
                simp at h1
              · exact hb hkn
          have htail := ih (n :: seen) v hgs' hXk hcnt'
          simp [validateAllNames, hval, expectedPass2, isOkE, htail]
          exact ⟨hnX, hseen⟩
        · -- counter 0: first pass-2 encounter, Ok, counter goes to 1
          have hval := validateName_of_zero v n h0
          set v' : DuplicateNameValidator :=
            { v with possible_duplicates := alInsert v.possible_duplicates n 1 } with hv'
          have hkeys' : keysOf v'.possible_duplicates = keysOf v.possible_duplicates := by
            exact keysOf_alInsert_of_mem _ _ _ hk
          have hgs' : goodState v' (n :: seen) := by
            intro k hk2
            rw [hkeys'] at hk2
            have hlook : alLookup v'.possible_duplicates k =
                if n = k then some 1 else alLookup v.possible_duplicates k := by
              exact alLookup_alInsert v.possible_duplicates n k 1
            by_cases hkn : n = k
            · refine Or.inl ⟨?_, ?_⟩
              · rw [hlook, if_pos hkn]
              · rw [← hkn]
                exact List.mem_cons_self n seen
            · rw [hlook, if_neg hkn]
              rcases hgs k hk2 with ⟨ha, hb⟩ | ⟨ha, hb⟩
              · exact Or.inl ⟨ha, List.mem_cons_of_mem n hb⟩
              · refine Or.inr ⟨ha, ?_⟩
                intro hmem
                rcases List.mem_cons.1 hmem with hkn2 | hkn2
                · exact hkn hkn2.symm
                · exact hb hkn2
          have hXk' : X ∈ keysOf v'.possible_duplicates := by
            rw [hkeys']
            exact hXk
          have htail := ih (n :: seen) v' hgs' hXk' hcnt'
          simp [validateAllNames, hval, expectedPass2, isOkE, htail]
          exact Or.inr hnotseen
      · -- not a candidate: Ok, state unchanged
        have hnone : alLookup v.possible_duplicates n = none := by
          rcases hl : alLookup v.possible_duplicates n with _ | c
          · rfl
          · exact absurd ((mem_keysOf_iff_lookup _ _).2 ⟨c, hl⟩) hk
        have hval := validateName_of_none v n hnone
        have hnX : n ≠ X := fun hh => hk (hh ▸ hXk)
        have hgs' : goodState v (n :: seen) := by
          intro k hk2
          rcases hgs k hk2 with ⟨ha, hb⟩ | ⟨ha, hb⟩
          · exact Or.inl ⟨ha, List.mem_cons_of_mem n hb⟩
          · refine Or.inr ⟨ha, ?_⟩
            intro hmem
            rcases List.mem_cons.1 hmem with hkn | hkn
            · exact hk (hkn ▸ hk2)
            · exact hb hkn
        have htail := ih (n :: seen) v hgs' hXk hcnt'
        simp [validateAllNames, hval, expectedPass2, isOkE, htail]
        exact Or.inl hnX

/-! ## Alphabet scan lemmas -/

lemma firstBad_none (al : List Nat) (l : List Nat) :
    ∀ i, (∀ c ∈ l, c ∈ al) → firstBad al l i = none := by
  induction l with
  | nil => intro i _; rfl
  | cons c rest ih =>
      intro i h
      have hc : c ∈ al := h c (List.mem_cons_self c rest)
      simp only [firstBad, if_pos hc]
      exact ih (i + 1) (fun d hd => h d (List.mem_cons_of_mem c hd))

lemma firstBad_first (al : List Nat) (l : List Nat) :
    ∀ (k i : Nat) (h : i < l.length),
      l.get ⟨i, h⟩ ∉ al →
      (∀ j (hj : j < i), l.get ⟨j, Nat.lt_trans hj h⟩ ∈ al) →
      firstBad al l k = some (l.get ⟨i, h⟩, k + i) := by
  induction l with
  | nil =>
      intro k i h
      simp at h
  | cons c rest ih =>
      intro k i h hbad hgood
      cases i with
      | zero =>
          simp only [List.get] at hbad
          simp [firstBad, hbad]
      | succ i2 =>
          have hc : c ∈ al := by
            have h0 := hgood 0 (Nat.succ_pos i2)
            simpa using h0
          have h2 : i2 < rest.length := Nat.lt_of_succ_lt_succ h
          have hbad2 : rest.get ⟨i2, h2⟩ ∉ al := by
            simpa using hbad
          have hgood2 : ∀ j (hj : j < i2),
              rest.get ⟨j, Nat.lt_trans hj h2⟩ ∈ al := by
            intro j hj
            have hg := hgood (j + 1) (Nat.succ_lt_succ hj)
            simpa using hg
          have hrec := ih (k + 1) i2 h2 hbad2 hgood2
          have harith : k + 1 + i2 = k + (i2 + 1) := by omega
          simp only [firstBad, if_pos hc, hrec, harith]
          rfl

/-! ## Fresh-state and counter-bound lemmas -/

lemma new_lookup (k : List Nat) :
    alLookup DuplicateNameValidator.new.possible_duplicates k = none :=
  rfl

lemma validateAllNames_empty_pd (ns : List (List Nat)) :
    ∀ v : DuplicateNameValidator, v.possible_duplicates = [] →
      (validateAllNames v ns).map isOkE = List.replicate ns.length true := by
  induction ns with
  | nil => intro v _; rfl
  | cons n rest ih =>
      intro v hv
      have hl : alLookup v.possible_duplicates n = none := by
        rw [hv]
        rfl
      have hval := validateName_of_none v n hl
      simp [validateAllNames, hval, isOkE, List.replicate, ih v hv]

lemma countersLE1_applyOp (oracle : FPOracle) (v : DuplicateNameValidator)
    (op : DupOp) (h : countersLE1 v) : countersLE1 (applyOp oracle v op) := by
  cases op with
  | ins n =>
      intro k c hk
      simp only [applyOp, insertName, ScalableBloomFilter.contains_or_insert] at hk
      by_cases hb : (decide (n ∈ v.filter) || oracle v.filter n) = true
      · simp only [hb, if_pos] at hk
        rw [alLookup_alInsert] at hk
        by_cases hnk : n = k
        · rw [if_pos hnk] at hk
          injection hk with hk2
          omega
        · rw [if_neg hnk] at hk
          exact h k c hk
      · simp only [hb, if_neg] at hk
        exact h k c hk
  | val n =>
      intro k c hk
      rcases hl : alLookup v.possible_duplicates n with _ | c0
      · rw [applyOp, validateName_of_none v n hl] at hk
        exact h k c hk
      · by_cases hc0 : 1 ≤ c0
        · rw [applyOp, validateName_of_pos v n c0 hl hc0] at hk
          exact h k c hk
        · have hz : c0 = 0 := by omega
          subst hz
          rw [applyOp, validateName_of_zero v n hl] at hk
          simp only [alLookup_alInsert] at hk
          by_cases hnk : n = k
          · rw [if_pos hnk] at hk
            injection hk with hk2
            omega
          · rw [if_neg hnk] at hk
            exact h k c hk

lemma countersLE1_runOps (oracle : FPOracle) (ops : List DupOp) :
    ∀ v, countersLE1 v → countersLE1 (runOps oracle v ops) := by
  induction ops with
  | nil => intro v h; exact h
  | cons op rest ih =>
      intro v h
      exact ih (applyOp oracle v op) (countersLE1_applyOp oracle v op h)

/-! ## Quality-score lemmas -/

lemma clamp_range (n : ℚ) : 0 ≤ clamp n MIN MAX ∧ clamp n MIN MAX ≤ 41 := by
  unfold clamp MIN MAX
  split_ifs with h1 h2 <;> constructor <;> linarith

lemma round_range (x : ℚ) (h0 : 0 ≤ x) (h41 : x ≤ 41) :
    0 ≤ round x ∧ round x ≤ 41 := by
  rw [round_eq]
  constructor
  · exact Int.le_floor.mpr (by push_cast; linarith)
  · have hlt : ⌊x + 1 / 2⌋ < 42 := Int.floor_lt.mpr (by push_cast; linarith)
    omega

/-! ## Claim theorems -/

/-- C3: for any record whose sequence contains a byte outside the permitted
set, `AlphabetValidator::validate` returns `Err` whose line type is
`Sequence`, whose 1-based position is the index of the leftmost disallowed
byte plus one, and whose message names the offending character; the full
equality shows only this first violation is reported. -/
theorem alphabet_reports_first_violation :
    ∀ (v : AlphabetValidator) (b : Block) (i : Nat) (h : i < b.sequence.length),
      b.sequence.get ⟨i, h⟩ ∉ v.alphabet →
      (∀ j (hj : j < i), b.sequence.get ⟨j, Nat.lt_trans hj h⟩ ∈ v.alphabet) →
      AlphabetValidator.validate v b =
        Except.error (Error.mk "S002" "AlphabetValidator"
          ("Invalid character: " ++ (Char.ofNat (b.sequence.get ⟨i, h⟩)).toString)
          LineType.Sequence (some (i + 1))) := by
  intro v b i h hbad hgood
  have hfb := firstBad_first v.alphabet b.sequence 0 i h hbad hgood
  simp [AlphabetValidator.validate, hfb]

/-- Witness for C3: with the default alphabet, sequence `ACXG` fails at the
leftmost disallowed byte `X` (index 2), reported with 1-based offset 3. -/
theorem alphabet_reports_first_violation_witness :
    AlphabetValidator.validate AlphabetValidator.default
        (Block.new [] [65, 67, 88, 71] [] []) =
      Except.error (Error.mk "S002" "AlphabetValidator"
        ("Invalid character: " ++ (Char.ofNat 88).toString)
        LineType.Sequence (some 3)) :=
  alphabet_reports_first_violation AlphabetValidator.default
    (Block.new [] [65, 67, 88, 71] [] []) 2 (by decide) (by decide) (by decide)

/-- C4: any record whose sequence consists only of permitted bytes passes
`AlphabetValidator::validate`; in particular a record with an empty sequence
passes under the default alphabet `ACGTNacgtn`. -/
theorem alphabet_all_permitted_ok :
    (∀ (v : AlphabetValidator) (b : Block),
        (∀ c ∈ b.sequence, c ∈ v.alphabet) →
        AlphabetValidator.validate v b = Except.ok ())
    ∧ ∀ b : Block, b.sequence = [] →
        AlphabetValidator.validate AlphabetValidator.default b = Except.ok () := by
  constructor
  · intro v b h
    simp [AlphabetValidator.validate, firstBad_none v.alphabet b.sequence 0 h]
  · intro b hb
    simp [AlphabetValidator.validate, hb, firstBad]

/-- Witness for C4: `ACGTN` passes under the default alphabet, and so does
the empty sequence. -/
theorem alphabet_all_permitted_ok_witness :
    AlphabetValidator.validate AlphabetValidator.default
        (Block.new [] [65, 67, 71, 84, 78] [] []) = Except.ok ()
    ∧ AlphabetValidator.validate AlphabetValidator.default
        (Block.new [] [] [] []) = Except.ok () :=
  ⟨alphabet_all_permitted_ok.1 AlphabetValidator.default
      (Block.new [] [65, 67, 71, 84, 78] [] []) (by decide),
   alphabet_all_permitted_ok.2 (Block.new [] [] [] []) rfl⟩

/-- C8: `AlphabetValidator::validate` is a pure function of the validator
configuration and the record: two calls on the same record with the same
validator instance yield identical results (the Rust method takes `&self`
and `&Block` and touches no other state, so it embeds as a pure function). -/
theorem alphabet_validate_deterministic :
    ∀ (v : AlphabetValidator) (b : Block),
      AlphabetValidator.validate v b = AlphabetValidator.validate v b :=
  fun _ _ => rfl

/-- C6: every value of `QualityScores::sample` lies in `[0, 41]`, and the
`clamp` helper maps below-minimum inputs to the minimum, above-maximum inputs
to the maximum, and leaves in-range inputs unchanged. -/
theorem quality_sample_bounded :
    ∀ n : ℚ,
      (0 ≤ QualityScores.sample n ∧ QualityScores.sample n ≤ 41)
      ∧ ∀ a lo hi : ℚ, lo ≤ hi →
          (a < lo → clamp a lo hi = lo)
          ∧ (a > hi → clamp a lo hi = hi)
          ∧ (lo ≤ a → a ≤ hi → clamp a lo hi = a) := by
  intro n
  constructor
  · obtain ⟨h0, h41⟩ := clamp_range n
    obtain ⟨r0, r41⟩ := round_range (clamp n MIN MAX) h0 h41
    unfold QualityScores.sample u8cast
    constructor
    · exact le_max_left 0 _
    · exact max_le (by norm_num) (le_trans (min_le_left _ _) r41)
  · intro a lo hi hlohi
    refine ⟨?_, ?_, ?_⟩
    · intro hlt
      rw [clamp, if_pos hlt]
    · intro hgt
      have hnlt : ¬ a < lo := not_lt.2 (le_of_lt (lt_of_le_of_lt hlohi hgt))
      rw [clamp, if_neg hnlt, if_pos hgt]
    · intro h1 h2
      have hnlt : ¬ a < lo := not_lt.2 h1
      have hngt : ¬ a > hi := not_lt.2 h2
      rw [clamp, if_neg hnlt, if_neg hngt]

/-- Witness for C6: the bound at the draw 100, and the three clamp clauses at
concrete inputs −1, 50 and 7 against the range `[0, 41]`. -/
theorem quality_sample_bounded_witness :
    (0 ≤ QualityScores.sample 100 ∧ QualityScores.sample 100 ≤ 41)
    ∧ clamp (-1 : ℚ) 0 41 = 0
    ∧ clamp (50 : ℚ) 0 41 = 41
    ∧ clamp (7 : ℚ) 0 41 = 7 :=
  ⟨(quality_sample_bounded 100).1,
   ((quality_sample_bounded 0).2 (-1) 0 41 (by norm_num)).1 (by norm_num),
   (((quality_sample_bounded 0).2 50 0 41 (by norm_num)).2.1 (by norm_num)),
   (((quality_sample_bounded 0).2 7 0 41 (by norm_num)).2.2 (by norm_num) (by norm_num))⟩

/-- C1: for any multiset of names in which exactly one name `X` repeats
(count ≥ 2) and all other names occur at most once, after pass 1 inserts
every name in order and pass 2 validates every name in the same order, a
position fails exactly when its name is `X` and `X` already occurred earlier
in pass-2 order — so the first occurrence of `X` and every uniquely-occurring
name pass, and the other occurrences of `X` fail. In particular the name
sequence `r1, r2, r1, r3, r1` yields Ok, Ok, Err, Ok, Err. -/
theorem dup_two_pass_determinism :
    (∀ (oracle : FPOracle) (names : List (List Nat)) (X : List Nat),
        2 ≤ names.count X →
        (∀ y, y ≠ X → names.count y ≤ 1) →
        (validateAllNames (insertAllNames oracle DuplicateNameValidator.new names)
            names).map isOkE = expectedPass2 X names [])
    ∧ (validateAllNames
          (insertAllNames noFalsePositives DuplicateNameValidator.new
            [[114, 49], [114, 50], [114, 49], [114, 51], [114, 49]])
          [[114, 49], [114, 50], [114, 49], [114, 51], [114, 49]]).map isOkE
        = [true, true, false, true, false] := by
  constructor
  · intro oracle names X hX huniq
    apply pass2_run
    · intro k hk
      obtain ⟨c, hc⟩ := (mem_keysOf_iff_lookup _ _).1 hk
      have hz := insertAllNames_values_zero oracle names DuplicateNameValidator.new
        (fun k2 c2 h2 => by rw [new_lookup] at h2; cases h2) k c hc
      subst hz
      exact Or.inr ⟨hc, by simp⟩
    · exact insertAllNames_complete oracle X names DuplicateNameValidator.new
        (Or.inl hX)
    · intro y hy
      simpa using huniq y hy
  · decide

/-- Witness for C1: the repeated name `r1` inserted twice then validated
twice yields the spec outcome list (first occurrence passes, second fails). -/
theorem dup_two_pass_determinism_witness :
    (validateAllNames
        (insertAllNames noFalsePositives DuplicateNameValidator.new
          [[114, 49], [114, 49]])
        [[114, 49], [114, 49]]).map isOkE
      = expectedPass2 [114, 49] [[114, 49], [114, 49]] [] := by
  apply dup_two_pass_determinism.1 noFalsePositives [[114, 49], [114, 49]] [114, 49]
  · decide
  · intro y hy
    rw [List.count_eq_zero.2]
    · omega
    · intro hmem
      rcases List.mem_cons.1 hmem with h | h
      · exact hy h
      · rcases List.mem_cons.1 h with h2 | h2
        · exact hy h2
        · cases h2

/-- C2: after pass 1 over any name list, every name occurring at least twice
is a key of the candidate map, for every false-positive oracle — the filter
model has no false negatives, so a true repeat is never missed. -/
theorem dup_pass1_no_false_negatives :
    ∀ (oracle : FPOracle) (names : List (List Nat)) (X : List Nat),
      2 ≤ names.count X →
      X ∈ keysOf (insertAllNames oracle DuplicateNameValidator.new
        names).possible_duplicates :=
  fun oracle names X h =>
    insertAllNames_complete oracle X names DuplicateNameValidator.new (Or.inl h)

/-- Witness for C2: `r1` inserted twice is a key of the candidate map. -/
theorem dup_pass1_no_false_negatives_witness :
    [114, 49] ∈ keysOf (insertAllNames noFalsePositives DuplicateNameValidator.new
      [[114, 49], [114, 49]]).possible_duplicates :=
  dup_pass1_no_false_negatives noFalsePositives [[114, 49], [114, 49]] [114, 49]
    (by decide)

/-- C7: on a freshly constructed validator whose candidate map was never
populated, `validate` returns Ok for every record and leaves the state
unchanged, and a whole pass 2 reports no failure. -/
theorem dup_unpopulated_validate_ok :
    (∀ b : Block,
        (DuplicateNameValidator.validate DuplicateNameValidator.new b).1 = Except.ok ()
        ∧ (DuplicateNameValidator.validate DuplicateNameValidator.new b).2
            = DuplicateNameValidator.new)
    ∧ ∀ ns : List (List Nat),
        (validateAllNames DuplicateNameValidator.new ns).map isOkE
          = List.replicate ns.length true := by
  constructor
  · intro b
    have hval := validateName_of_none DuplicateNameValidator.new b.name
      (new_lookup b.name)
    rw [DuplicateNameValidator.validate, hval]
    exact ⟨rfl, rfl⟩
  · intro ns
    exact validateAllNames_empty_pd ns DuplicateNameValidator.new rfl

/-- C9: in any state reachable from `new` by any sequence of `insert` and
`validate` operations, every counter stored in the candidate map is 0 or 1,
and `validate` on a counter that is already ≥ 1 returns Err without touching
the state — so a counter is only ever incremented from 0 to 1 and cannot
overflow. -/
theorem dup_counters_bounded :
    (∀ (oracle : FPOracle) (ops : List DupOp) (k : List Nat) (c : Nat),
        alLookup (runOps oracle DuplicateNameValidator.new ops).possible_duplicates k
          = some c →
        c ≤ 1)
    ∧ ∀ (v : DuplicateNameValidator) (n : List Nat) (c : Nat),
        alLookup v.possible_duplicates n = some c → 1 ≤ c →
        validateName v n = (Except.error (dupError n), v) := by
  constructor
  · intro oracle ops k c hc
    exact countersLE1_runOps oracle ops DuplicateNameValidator.new
      (fun k2 c2 h2 => by rw [new_lookup] at h2; cases h2) k c hc
  · intro v n c hc h1
    exact validateName_of_pos v n c hc h1

/-- Witness for C9: after inserting `r1` twice and validating it once, its
counter is exactly 1 (and 1 ≤ 1), and validating it again errors without
changing the state. -/
theorem dup_counters_bounded_witness :
    alLookup (runOps noFalsePositives DuplicateNameValidator.new
        [DupOp.ins [114, 49], DupOp.ins [114, 49], DupOp.val [114, 49]]).possible_duplicates
        [114, 49] = some 1
    ∧ (1 : Nat) ≤ 1
    ∧ validateName ⟨[], [([114, 49], 1)]⟩ [114, 49]
        = (Except.error (dupError [114, 49]), ⟨[], [([114, 49], 1)]⟩) :=
  ⟨by decide,
   dup_counters_bounded.1 noFalsePositives
     [DupOp.ins [114, 49], DupOp.ins [114, 49], DupOp.val [114, 49]] [114, 49] 1
     (by decide),
   dup_counters_bounded.2 ⟨[], [([114, 49], 1)]⟩ [114, 49] 1 (by decide) (by decide)⟩

/-- C10: `DuplicateNameValidator::validate` is atomic on error — whenever it
returns Err the state is unchanged; and whenever the state does change, the
call returned Ok and the change is exactly the counter of the record's name
going from 0 to 1. -/
theorem dup_validate_atomic_on_error :
    ∀ (v : DuplicateNameValidator) (b : Block),
      (∀ e, (DuplicateNameValidator.validate v b).1 = Except.error e →
        (DuplicateNameValidator.validate v b).2 = v)
      ∧ ((DuplicateNameValidator.validate v b).2 ≠ v →
          (DuplicateNameValidator.validate v b).1 = Except.ok ()
          ∧ alLookup v.possible_duplicates b.name = some 0
          ∧ (DuplicateNameValidator.validate v b).2
              = { v with possible_duplicates := alInsert v.possible_duplicates b.name 1 }) := by
  intro v b
  rcases hl : alLookup v.possible_duplicates b.name with _ | c
  · have hval := validateName_of_none v b.name hl
    constructor
    · intro e _
      rw [DuplicateNameValidator.validate, hval]
    · intro hne
      exact absurd (by rw [DuplicateNameValidator.validate, hval]) hne
  · by_cases hc : 1 ≤ c
    · have hval := validateName_of_pos v b.name c hl hc
      constructor
      · intro e _
        rw [DuplicateNameValidator.validate, hval]
      · intro hne
        exact absurd (by rw [DuplicateNameValidator.validate, hval]) hne
    · have hz : c = 0 := by omega
      subst hz
      have hval := validateName_of_zero v b.name hl
      constructor
      · intro e he
        rw [DuplicateNameValidator.validate, hval] at he
        cases he
      · intro _
        refine ⟨?_, rfl, ?_⟩
        · rw [DuplicateNameValidator.validate, hval]
        · rw [DuplicateNameValidator.validate, hval]

/-- Witness for C10: a state whose counter for `r1` is already 1 errors on
`r1` and is left exactly unchanged. -/
theorem dup_validate_atomic_on_error_witness :
    (DuplicateNameValidator.validate ⟨[], [([114, 49], 1)]⟩
        (Block.new [114, 49] [] [] [])).1 = Except.error (dupError [114, 49])
    ∧ (DuplicateNameValidator.validate ⟨[], [([114, 49], 1)]⟩
        (Block.new [114, 49] [] [] [])).2 = (⟨[], [([114, 49], 1)]⟩ : DuplicateNameValidator) :=
  ⟨rfl,
   (dup_validate_atomic_on_error ⟨[], [([114, 49], 1)]⟩
       (Block.new [114, 49] [] [] [])).1 (dupError [114, 49]) rfl⟩

/-- Counterexample for C5 as stated: when the filter reports a (false)
positive on the very first insert call of a name — which the probabilistic
filter contract permits — the name IS added to the candidate map on the
insert call in which the filter first sees it: inserting `r1` once into a
fresh validator whose filter flags every query as present yields `r1` as a
key. -/
theorem dup_candidate_first_seen_counterexample :
    [114, 49] ∈ keysOf (DuplicateNameValidator.insert alwaysHit
      DuplicateNameValidator.new
      (Block.new [114, 49] [] [] [])).possible_duplicates := by
  decide

/-- C5 (amended): in every state reachable by inserting a list of names from
`new`, (1) every key of the candidate map was the name argument of some prior
insert call; (2) a name is not added to the map on the insert call in which
the filter first sees it provided the filter does not report a false positive
on that call; (3) `validate` never adds a key (and `is_empty` and key access
do not mutate); (4) `new` starts with no keys. -/
theorem dup_candidate_map_invariant :
    (∀ (oracle : FPOracle) (names : List (List Nat)) (k : List Nat),
        k ∈ keysOf (insertAllNames oracle DuplicateNameValidator.new
          names).possible_duplicates →
        k ∈ names)
    ∧ (∀ (oracle : FPOracle) (pre : List (List Nat)) (x : List Nat),
        x ∉ pre →
        oracle (insertAllNames oracle DuplicateNameValidator.new pre).filter x
          = false →
        x ∉ keysOf (insertAllNames oracle DuplicateNameValidator.new
          (pre ++ [x])).possible_duplicates)
    ∧ (∀ (v : DuplicateNameValidator) (b : Block),
        keysOf (DuplicateNameValidator.validate v b).2.possible_duplicates
          = keysOf v.possible_duplicates)
    ∧ keysOf DuplicateNameValidator.new.possible_duplicates = [] := by
  have hsub : ∀ (oracle : FPOracle) (names : List (List Nat)) (k : List Nat),
      k ∈ keysOf (insertAllNames oracle DuplicateNameValidator.new
        names).possible_duplicates →
      k ∈ names := by
    intro oracle names k hk
    rcases insertAllNames_keys_sub oracle names DuplicateNameValidator.new k hk
      with h | h
    · exact h
    · cases h
  refine ⟨hsub, ?_, ?_, rfl⟩
  · intro oracle pre x hxpre horacle hmem
    rw [insertAllNames_append] at hmem
    set w := insertAllNames oracle DuplicateNameValidator.new pre with hw
    have hxf : x ∉ w.filter := by
      rw [hw, insertAllNames_filter]
      intro hmem2
      rcases List.mem_append.1 hmem2 with h | h
      · exact hxpre (List.mem_reverse.1 h)
      · cases h
    have hbit : (decide (x ∈ w.filter) || oracle w.filter x) = false := by
      rw [horacle]
      simp [hxf]
    have hpd : (insertAllNames oracle w [x]).possible_duplicates
        = w.possible_duplicates := by
      simp [insertAllNames, insertName, ScalableBloomFilter.contains_or_insert, hbit]
    rw [hpd] at hmem
    exact hxpre (hsub oracle pre x hmem)
  · intro v b
    exact keysOf_validateName v b.name

/-- Witness for C5 (amended): `r1` inserted twice gives a key drawn from the
inserted names, and a never-before-seen `r2` is not added on its first insert
under a false-positive-free filter. -/
theorem dup_candidate_map_invariant_witness :
    [114, 49] ∈ ([[114, 49], [114, 49]] : List (List Nat))
    ∧ [114, 50] ∉ keysOf (insertAllNames noFalsePositives DuplicateNameValidator.new
        ([[114, 49]] ++ [[114, 50]])).possible_duplicates :=
  ⟨dup_candidate_map_invariant.1 noFalsePositives [[114, 49], [114, 49]] [114, 49]
      (by decide),
   dup_candidate_map_invariant.2.1 noFalsePositives [[114, 49]] [114, 50]
      (by decide) (by decide)⟩
